import Mathlib

/-!
Verification of the CleanSlate cleaning and normalization pipeline
(`src/cleaning.py`) by a shallow embedding into Lean 4.

Strings are modelled as `List Char` (Python strings are sequences of
unicode code points).  Python dynamic values occurring in raw records are
modelled by the small universe `PyAtom` / `PyVal` (floats are omitted;
every claim only involves strings, integers, booleans, `None`, lists and
absent keys).  Operations that can raise in Python are modelled in the
`Except` monad; `try/except` blocks become explicit `match`es.
Library routines from the Python standard library (`html.unescape`,
`unicodedata.normalize`, `str.lower`, `urllib.parse.urlparse`,
`datetime`) are modelled on representative sub-tables, faithful to their
documented behaviour on the characters the code and the claims exercise.
All definitions are structural (fuel-indexed where the source scans by
regular expressions), so concrete runs reduce inside the kernel.
-/

/-- The kind of runtime error a modelled Python operation can raise. -/
inductive PyErr where
  | attributeError
  | typeError
deriving DecidableEq, Repr

/-- Scalar Python values that can appear in a raw record field. -/
inductive PyAtom where
  | pynone
  | str (s : List Char)
  | int (n : Int)
  | bool (b : Bool)
deriving DecidableEq, Repr

/-- A Python value: a scalar or a (depth-one) list of scalars.  Nested
lists never influence any claim, so the modelled universe keeps lists
flat. -/
inductive PyVal where
  | atom (a : PyAtom)
  | list (xs : List PyAtom)
deriving DecidableEq, Repr

/-- Python truthiness of a scalar. -/
def PyAtom.truthy : PyAtom → Bool
  | .pynone => false
  | .str s => s ≠ []
  | .int n => n ≠ 0
  | .bool b => b

/-- Python truthiness of a modelled value. -/
def PyVal.truthy : PyVal → Bool
  | .atom a => a.truthy
  | .list xs => xs ≠ []

/-- Decimal digit characters of a natural number (models the digits of
Python `str(n)` for `n ≥ 0`). -/
def natDigits (n : Nat) : List Char :=
  Nat.toDigits 10 n

/-- Models Python `str(...)` on a scalar. -/
def PyAtom.pyStr : PyAtom → List Char
  | .pynone => "None".data
  | .str s => s
  | .int n => if n < 0 then '-' :: natDigits n.natAbs else natDigits n.natAbs
  | .bool b => if b then "True".data else "False".data

/-- Models Python `repr(...)` on a scalar (used by `str` on a list);
string quoting is simplified to plain single quotes. -/
def PyAtom.pyRepr : PyAtom → List Char
  | .str s => '\'' :: s ++ ['\'']
  | a => a.pyStr

/-- Models Python `str(...)` on a modelled value. -/
def PyVal.pyStr : PyVal → List Char
  | .atom a => a.pyStr
  | .list xs => '[' :: (List.intercalate ", ".data (xs.map PyAtom.pyRepr)) ++ [']']

/-- A raw article record as delivered by the upstream feed: every field
the validator reads, each possibly absent (`none`) or holding an
arbitrary value. -/
structure RawRecord where
  article_id : Option PyVal := none
  title : Option PyVal := none
  headline : Option PyVal := none
  description : Option PyVal := none
  content : Option PyVal := none
  source_name : Option PyVal := none
  source_id : Option PyVal := none
  link : Option PyVal := none
  url : Option PyVal := none
  category : Option PyVal := none
  pubDate : Option PyVal := none
  pub_date : Option PyVal := none
deriving DecidableEq, Repr

/-- The in-pipeline article dictionary.  The three count fields are `0`
until the statistics stage sets them, mirroring keys that are absent
until stage 7 writes them; `flags` mirrors the growable `_flags` list. -/
structure Article where
  article_id : List Char
  title : Option (List Char)
  body_text : List Char
  source : List Char
  domain : List Char
  category : List (List Char)
  pub_datetime : Option Int
  url : List Char
  flags : List (List Char) := []
  character_count : Nat := 0
  token_count : Nat := 0
  sentence_count : Nat := 0
deriving DecidableEq, Repr

/-- A default article value, used only to extract elements from
concretely computed lists in closed statements. -/
def emptyArticle : Article :=
  { article_id := [], title := none, body_text := [], source := [],
    domain := [], category := [], pub_datetime := none, url := [] }

/-! ## Character classes -/

/-- Models Python `str.isspace` / the regex class `\s` on the
whitespace characters relevant here (ASCII whitespace, the C1 separators,
NEL, NBSP and the common Unicode space code points). -/
def pyWs (c : Char) : Bool :=
  c = ' ' || c = '\t' || c = '\n' || c = '\r' || c.toNat = 0x0b || c.toNat = 0x0c ||
  (0x1c ≤ c.toNat && c.toNat ≤ 0x1f) || c.toNat = 0x85 || c.toNat = 0xa0 ||
  c.toNat = 0x1680 || (0x2000 ≤ c.toNat && c.toNat ≤ 0x200a) ||
  c.toNat = 0x2028 || c.toNat = 0x2029 || c.toNat = 0x202f ||
  c.toNat = 0x205f || c.toNat = 0x3000

/-- Membership in Python `string.printable`: the 95 ASCII graphic
characters and space, plus `\t\n\r\x0b\x0c`. -/
def inPrintable (c : Char) : Bool :=
  (32 ≤ c.toNat && c.toNat ≤ 126) ||
  c = '\t' || c = '\n' || c = '\r' || c = '\x0b' || c = '\x0c'

/-- The three sentence-terminal punctuation marks `[!?.]`. -/
def p3 (c : Char) : Bool :=
  c = '!' || c = '?' || c = '.'

/-- The six punctuation marks of the class `[.,!?;:]`. -/
def p6 (c : Char) : Bool :=
  c = '.' || c = ',' || c = '!' || c = '?' || c = ';' || c = ':'

/-- ASCII decimal digit, class `\d` restricted to ASCII input (the
modelled records only carry ASCII digits). -/
def isDigitCh (c : Char) : Bool :=
  '0' ≤ c && c ≤ '9'

/-- Regex word character `\w`, modelled on ASCII. -/
def isWordCh (c : Char) : Bool :=
  ('a' ≤ c && c ≤ 'z') || ('A' ≤ c && c ≤ 'Z') || isDigitCh c || c = '_'

/-- ASCII lowering of a single character, used for the `re.IGNORECASE`
comparisons of the sanitizer. -/
def asciiLow (c : Char) : Char :=
  if 'A' ≤ c && c ≤ 'Z' then Char.ofNat (c.toNat + 32) else c

/-- Case-insensitive comparison against an (already lowercase) pattern
character. -/
def charCI (c d : Char) : Bool :=
  asciiLow c = d

/-- Models Python `str.strip` with no argument: drop leading and
trailing whitespace. -/
def stripList (s : List Char) : List Char :=
  ((s.dropWhile pyWs).reverse.dropWhile pyWs).reverse

/-- Models Python `str.upper` on the modelled (ASCII) subset. -/
def asciiUp (c : Char) : Char :=
  if 'a' ≤ c && c ≤ 'z' then Char.ofNat (c.toNat - 32) else c

/-- Models `s.upper()` on a string. -/
def pyUpperStr (s : List Char) : List Char :=
  s.map asciiUp

/-- Models `' '.join(parts)`. -/
def joinSpace : List (List Char) → List Char
  | [] => []
  | [p] => p
  | p :: ps => p ++ ' ' :: joinSpace ps

/-! ## Stage 2: `sanitize_text` (Raw Text Sanitation)

The five `re.sub` passes of the source are modelled by explicit
left-to-right scanners.  Scanners that skip over a matched span recurse
on a strict suffix, so they are indexed by a fuel argument initialised
with the length of the string; every recursive call consumes at least
one character, hence the fuel is never exhausted. -/

/-- Consume a literal pattern from the front of a string; return the
remainder on success. -/
def dropLit : List Char → List Char → Option (List Char)
  | [], s => some s
  | _ :: _, [] => none
  | c :: cs, d :: ds => if d = c then dropLit cs ds else none

/-- Split a string at its first `'>'`: returns the (`'>'`-free) part
before it and the part after it. -/
def splitAtGt : List Char → Option (List Char × List Char)
  | [] => none
  | c :: r =>
    if c = '>' then some ([], r)
    else (splitAtGt r).map (fun p => (c :: p.1, p.2))

/-- One fuel-indexed pass of `re.sub(r'<[^>]+>', '', text)`: at a `'<'`
whose next `'>'` is not adjacent, the whole span is dropped and the scan
continues after the `'>'`; otherwise the character is kept. -/
def removeTagsGo : Nat → List Char → List Char
  | 0, s => s
  | _ + 1, [] => []
  | fuel + 1, c :: rest =>
    if c = '<' then
      match splitAtGt rest with
      | some (inner, after) =>
        if inner = [] then c :: removeTagsGo fuel rest
        else removeTagsGo fuel after
      | none => c :: removeTagsGo fuel rest
    else c :: removeTagsGo fuel rest

/-- Models `re.sub(r'<[^>]+>', '', text)`. -/
def removeTags (s : List Char) : List Char :=
  removeTagsGo s.length s

/-- After a scheme, match `://` followed by at least one non-space
character; return the remainder after the greedy `\S+`. -/
def afterScheme (s : List Char) : Option (List Char) :=
  match s with
  | c1 :: c2 :: c3 :: u =>
    if c1 = ':' && c2 = '/' && c3 = '/' then
      if u.takeWhile (fun c => !pyWs c) = [] then none
      else some (u.dropWhile (fun c => !pyWs c))
    else none
  | _ => none

/-- Try to match `https?://\S+` (case-insensitive) at the front of the
string; returns the remainder after the match. -/
def tryHttp (s : List Char) : Option (List Char) :=
  match s with
  | c1 :: c2 :: c3 :: c4 :: c5 :: rest2 =>
    if charCI c1 'h' && charCI c2 't' && charCI c3 't' && charCI c4 'p' then
      if charCI c5 's' then
        match afterScheme rest2 with
        | some rem => some rem
        | none => afterScheme (c5 :: rest2)
      else afterScheme (c5 :: rest2)
    else none
  | _ => none

/-- Try to match `www\.\S+` (case-insensitive) at the front of the
string; returns the remainder after the match. -/
def tryWww (s : List Char) : Option (List Char) :=
  match s with
  | c1 :: c2 :: c3 :: c4 :: rest =>
    if charCI c1 'w' && charCI c2 'w' && charCI c3 'w' && c4 = '.' then
      if rest.takeWhile (fun c => !pyWs c) = [] then none
      else some (rest.dropWhile (fun c => !pyWs c))
    else none
  | _ => none

/-- Try to match `https?://\S+|www\.\S+` at the front of the string. -/
def tryUrl (s : List Char) : Option (List Char) :=
  match tryHttp s with
  | some rem => some rem
  | none => tryWww s

/-- One fuel-indexed pass of
`re.sub(r'https?://\S+|www\.\S+', '', text, flags=re.IGNORECASE)`. -/
def removeURLsGo : Nat → List Char → List Char
  | 0, s => s
  | _ + 1, [] => []
  | fuel + 1, c :: rest =>
    match tryUrl (c :: rest) with
    | some rem => removeURLsGo fuel rem
    | none => c :: removeURLsGo fuel rest

/-- Models the URL-removal `re.sub` of the sanitizer. -/
def removeURLs (s : List Char) : List Char :=
  removeURLsGo s.length s

/-- Models
`''.join(char for char in text if char in string.printable or char.isspace())`. -/
def filterPrintable (s : List Char) : List Char :=
  s.filter (fun c => inPrintable c || pyWs c)

/-- Models `re.sub(r'\s+', ' ', text)`: each maximal whitespace run
becomes a single space (a whitespace character is dropped when the next
character is also whitespace, else emitted as `' '`). -/
def collapseWs : List Char → List Char
  | [] => []
  | [a] => [if pyWs a then ' ' else a]
  | a :: b :: r =>
    if pyWs a && pyWs b then collapseWs (b :: r)
    else (if pyWs a then ' ' else a) :: collapseWs (b :: r)

/-- Models `re.sub(r'([!?.]){2,}', r'\1', text)`: each run of at least
two characters from `[!?.]` is replaced by the last character of the run
(the backreference holds the final repetition). -/
def collapsePunct : List Char → List Char
  | [] => []
  | [a] => [a]
  | a :: b :: r =>
    if p3 a && p3 b then collapsePunct (b :: r)
    else a :: collapsePunct (b :: r)

/-- A named character reference table for the modelled subset of
`html.unescape` (semicolon-terminated forms). -/
def entityTable : List (List Char × Char) :=
  [("amp;".data, '&'), ("lt;".data, '<'), ("gt;".data, '>'),
   ("quot;".data, '"'), ("apos;".data, '\'')]

/-- Parse a decimal digit run into a number together with the remainder. -/
def readDec : List Char → Nat → Nat → (Nat × List Char)
  | [], _, acc => (acc, [])
  | c :: r, fuel + 1, acc =>
    if isDigitCh c then readDec r fuel (acc * 10 + (c.toNat - '0'.toNat))
    else (acc, c :: r)
  | s, 0, acc => (acc, s)

/-- Try to read an entity after an `'&'`; returns the decoded character
and the remainder.  Numeric references are accepted in decimal form when
they denote a valid scalar value. -/
def tryEntity (s : List Char) : Option (Char × List Char) :=
  match s with
  | '#' :: t =>
    let (n, r) := readDec t t.length 0
    match r with
    | ';' :: r2 =>
      if t ≠ [] && isDigitCh (t.headD ' ') &&
         (n < 0xd800 || (0xe000 ≤ n && n ≤ 0x10ffff)) then
        some (Char.ofNat n, r2)
      else none
    | _ => none
  | _ =>
    (entityTable.filterMap (fun e =>
      (dropLit e.1 s).map (fun rem => (e.2, rem)))).head?

/-- Fuel-indexed scan of `html.unescape` over the modelled entity
subset. -/
def unescapeGo : Nat → List Char → List Char
  | 0, s => s
  | _ + 1, [] => []
  | fuel + 1, c :: rest =>
    if c = '&' then
      match tryEntity rest with
      | some (d, rem) => d :: unescapeGo fuel rem
      | none => c :: unescapeGo fuel rest
    else c :: unescapeGo fuel rest

/-- Models `html.unescape(text)` on the modelled entity subset. -/
def unescape (s : List Char) : List Char :=
  unescapeGo s.length s

/-- Step 2 of the pipeline, `sanitize_text`: entity decoding, tag
removal, URL removal, printable filtering, whitespace collapsing,
repeated-punctuation collapsing, and a final strip; empty input is
returned unchanged. -/
def sanitize_text (s : List Char) : List Char :=
  if s = [] then []
  else
    stripList (collapsePunct (collapseWs (filterPrintable
      (removeURLs (removeTags (unescape s))))))

/-- Decides whether a string contains a substring matching the HTML tag
pattern `<[^>]+>`: a `'<'` whose following text contains a `'>'` that is
not immediately adjacent. -/
def hasTag : List Char → Bool
  | [] => false
  | c :: rest =>
    (c = '<' && rest.contains '>' && !(rest.head? = some '>')) || hasTag rest

/-- Fuel-indexed scan deciding whether any position of the string starts
a match of `https?://\S+|www\.\S+`. -/
def hasUrlGo : Nat → List Char → Bool
  | 0, _ => false
  | _ + 1, [] => false
  | fuel + 1, c :: rest => (tryUrl (c :: rest)).isSome || hasUrlGo fuel rest

/-- Decides whether a string contains a substring matching the URL
pattern of the sanitizer. -/
def hasUrl (s : List Char) : Bool :=
  hasUrlGo s.length s

/-- `s.replace(c, r)` for a one-character needle (replaces every
occurrence). -/
def pyReplaceChar (c : Char) (r : List Char) (s : List Char) : List Char :=
  s.flatMap (fun d => if d = c then r else [d])

/-! ## Stage 3: `normalize_unicode_and_case`

`unicodedata.normalize('NFKC', ...)` and `str.lower()` are modelled
character-wise over representative mapping tables (identity outside the
tables).  The three `str.replace` lines are modelled on the source's
actual lexical structure: on the quote line the apostrophes lex as a
triple-quote opener, so the whole line is a single call replacing the
fifteen-character literal between the two triple-quotes by one
apostrophe; the double-quote line replaces a plain double quote by
itself (a no-op); only the em/en dash line carries non-ASCII needles. -/

/-- Compatibility mapping table for the modelled subset of NFKC
(identity outside the table). -/
def nfkcTable : List (Char × List Char) :=
  [(' ', " ".data),      -- no-break space
   ('…', "...".data),    -- horizontal ellipsis
   ('ﬁ', "fi".data),     -- latin small ligature fi
   ('ﬂ', "fl".data),     -- latin small ligature fl
   ('²', "2".data),      -- superscript two
   ('™', "TM".data),     -- trade mark sign
   ('Ω', "Ω".data), -- ohm sign to greek capital omega
   ('Ａ', "A".data)]      -- fullwidth latin capital A

/-- NFKC on one character over the modelled table. -/
def nfkcChar (c : Char) : List Char :=
  match List.lookup c nfkcTable with
  | some s => s
  | none => [c]

/-- The 26 ASCII uppercase letters. -/
def upperAscii : List Char := "ABCDEFGHIJKLMNOPQRSTUVWXYZ".data

/-- The 26 ASCII lowercase letters. -/
def lowerAscii : List Char := "abcdefghijklmnopqrstuvwxyz".data

/-- The ASCII part of the `str.lower` table. -/
def asciiLowerPairs : List (Char × Char) := upperAscii.zip lowerAscii

/-- The non-ASCII part of the modelled `str.lower` table (including the
one-to-two mapping of dotted capital I). -/
def extraLowerTable : List (Char × List Char) :=
  [('Ω', "ω".data),           -- greek capital omega
   ('İ', ['i', '̇'])]         -- latin capital I with dot above

/-- `str.lower` on one character over the modelled tables. -/
def lowerChar (c : Char) : List Char :=
  match List.lookup c asciiLowerPairs with
  | some d => [d]
  | none =>
    match List.lookup c extraLowerTable with
    | some s => s
    | none => [c]

/-- `unicodedata.normalize('NFKC', text)` over the modelled table. -/
def nfkcStr (s : List Char) : List Char :=
  s.flatMap nfkcChar

/-- `text.lower()` over the modelled tables. -/
def pyLowerStr (s : List Char) : List Char :=
  s.flatMap lowerChar

/-- One fuel-indexed pass of Python `str.replace` with a substring
needle: non-overlapping occurrences are replaced left to right, and
scanning continues after the replacement text without rescanning it. -/
def pyReplaceStrGo (needle repl : List Char) : Nat → List Char → List Char
  | 0, s => s
  | _ + 1, [] => []
  | fuel + 1, c :: rest =>
    if needle.isPrefixOf (c :: rest) then
      repl ++ pyReplaceStrGo needle repl fuel ((c :: rest).drop needle.length)
    else c :: pyReplaceStrGo needle repl fuel rest

/-- `s.replace(needle, repl)` for a nonempty needle. -/
def pyReplaceStr (needle repl s : List Char) : List Char :=
  if needle = [] then s else pyReplaceStrGo needle repl s.length s

/-- The fifteen-character literal that the quote-replacement line of
the source actually replaces: the apostrophes on that line lex as
triple-quote string delimiters, so the needle is the text standing
between them (comma, space, double quote, apostrophe, double quote,
closing parenthesis, and the characters of `.replace(`). -/
def quoteNeedle : List Char :=
  ", \"".data ++ '\'' :: "\").replace(".data

/-- The quote/dash replacement lines of the source, as lexed: one
substring replacement of `quoteNeedle` by an apostrophe, two no-op
replacements of the double quote by itself, then the em dash and en
dash replacements. -/
def replQuotesDashes (s : List Char) : List Char :=
  pyReplaceChar '–' "-".data (pyReplaceChar '—' "-".data
    (pyReplaceChar '"' "\"".data (pyReplaceChar '"' "\"".data
      (pyReplaceStr quoteNeedle ['\''] s))))

/-- Step 3 of the pipeline, `normalize_unicode_and_case`: NFKC, then
lowercasing, then quote/dash folding; empty input is returned
unchanged. -/
def normalize_unicode_and_case (s : List Char) : List Char :=
  if s = [] then []
  else replQuotesDashes (pyLowerStr (nfkcStr s))

/-! ## Stage 4: `normalize_sentence_boundaries` -/

/-- One fuel-indexed pass of `re.sub(c₀ + r'\s{2,}', c₀ + ' ', text)`
for a terminal mark `c₀` (the three source patterns `\.\s{2,}`,
`!\s{2,}`, `?\s{2,}`): the mark followed by two or more whitespace
characters becomes the mark and a single space. -/
def dotSpaceGo (c0 : Char) : Nat → List Char → List Char
  | 0, s => s
  | _ + 1, [] => []
  | fuel + 1, c :: rest =>
    if c = c0 then
      if 2 ≤ (rest.takeWhile pyWs).length then
        c :: ' ' :: dotSpaceGo c0 fuel (rest.dropWhile pyWs)
      else c :: dotSpaceGo c0 fuel rest
    else c :: dotSpaceGo c0 fuel rest

/-- Models one of the three `\s{2,}` collapsing passes. -/
def dotSpaceFix (c0 : Char) (s : List Char) : List Char :=
  dotSpaceGo c0 s.length s

/-- One fuel-indexed pass of `re.sub(r'\s+([.,!?;:])+\s+', ' ', text)`:
a whitespace run, a punctuation run and a trailing whitespace run are
replaced by one space (the trailing `\s+` needs a real whitespace
character, so nothing matches at the end of the string). -/
def strayPunctGo : Nat → List Char → List Char
  | 0, s => s
  | _ + 1, [] => []
  | fuel + 1, c :: rest =>
    if pyWs c then
      let t := (c :: rest).dropWhile pyWs
      let p := t.takeWhile p6
      let u := t.dropWhile p6
      if p ≠ [] && pyWs (u.headD 'x') then
        ' ' :: strayPunctGo fuel (u.dropWhile pyWs)
      else c :: strayPunctGo fuel rest
    else c :: strayPunctGo fuel rest

/-- Models the stray-punctuation `re.sub`. -/
def strayPunctFix (s : List Char) : List Char :=
  strayPunctGo s.length s

/-- Models `re.sub(r'^\s*([.,!?;:])+\s+', '', text)`: the single
anchored match (optional leading whitespace, then a punctuation run,
then mandatory whitespace) is removed when present. -/
def stripLeadingPunct (s : List Char) : List Char :=
  let t := s.dropWhile pyWs
  let p := t.takeWhile p6
  let u := t.dropWhile p6
  if p ≠ [] && pyWs (u.headD 'x') then u.dropWhile pyWs
  else s

/-- Models `re.sub(r'([.!?])([a-z])', r'\1 \2', text)`: insert a space
between a sentence-terminal mark and an immediately following lowercase
letter; scanning continues after the letter. -/
def insertSpaceGo : List Char → List Char
  | [] => []
  | [a] => [a]
  | a :: b :: r =>
    if p3 a && ('a' ≤ b && b ≤ 'z') then a :: ' ' :: b :: insertSpaceGo r
    else a :: insertSpaceGo (b :: r)

/-- Step 4 of the pipeline, `normalize_sentence_boundaries`; empty
input is returned unchanged. -/
def normalize_sentence_boundaries (s : List Char) : List Char :=
  if s = [] then []
  else
    stripList (insertSpaceGo (stripLeadingPunct (strayPunctFix
      (dotSpaceFix '?' (dotSpaceFix '!' (dotSpaceFix '.' s))))))

/-! ## Stage 5: `normalize_numbers` -/

/-- One fuel-indexed pass of `re.sub(r'\b\d+\b', '<NUM>', text)`.  The
boolean argument records whether the previous scanned character was a
word character (`\b` is a transition between word and non-word). -/
def numGo : Nat → Bool → List Char → List Char
  | 0, _, s => s
  | _ + 1, _, [] => []
  | fuel + 1, prevWord, c :: rest =>
    if isDigitCh c && !prevWord then
      let after := (c :: rest).dropWhile isDigitCh
      if isWordCh (after.headD ' ') then
        c :: numGo fuel true rest
      else "<NUM>".data ++ numGo fuel true after
    else c :: numGo fuel (isWordCh c) rest

/-- Step 5 of the pipeline, `normalize_numbers`: when disabled or the
input is empty, the input is returned unchanged. -/
def normalize_numbers (s : List Char) (enabled : Bool) : List Char :=
  if !enabled || s = [] then s
  else numGo s.length false s

/-! ## Stage 1: `validate_and_enforce_schema`

The only operations of the validator body that can raise on the
modelled value universe are `content.upper()` and `part.strip()` on a
truthy non-string; they are modelled in `Except`, and the enclosing
`try/except Exception` of the source becomes the `match` in
`validate_and_enforce_schema`.  `datetime.timestamp()` on a naive
datetime uses the local timezone of the host; the model threads the
local UTC offset (in seconds) as the explicit parameter `tz`. -/

/-- `f"article_{article_idx:04d}"`: the index zero-padded to width 4. -/
def pad4 (n : Nat) : List Char :=
  let d := natDigits n
  List.replicate (4 - d.length) '0' ++ d

/-- `value or ''`. -/
def orEmptyStr (v : PyVal) : PyVal :=
  if v.truthy then v else .atom (.str [])

/-- `v.upper()`: raises `AttributeError` unless `v` is a string. -/
def pyUpperVal : PyVal → Except PyErr (List Char)
  | .atom (.str s) => .ok (pyUpperStr s)
  | _ => .error .attributeError

/-- Decides substring containment (Python `in` on strings). -/
def containsSub : List Char → List Char → Bool
  | pat, [] => pat = []
  | pat, c :: r => List.isPrefixOf pat (c :: r) || containsSub pat r

/-- The paywall-stub handling of `content`:
`if content and 'ONLY AVAILABLE' in content.upper(): content = ''`. -/
def contentStep (content : PyVal) : Except PyErr PyVal :=
  if content.truthy then
    match pyUpperVal content with
    | .error e => .error e
    | .ok u =>
      .ok (if containsSub "ONLY AVAILABLE".data u then .atom (.str []) else content)
  else .ok content

/-- The comprehension `[part for part in parts if part and part.strip()]`
over the body parts, with the element values returned as strings
(`part.strip()` raises `AttributeError` on a truthy non-string). -/
def filterParts : List PyVal → Except PyErr (List (List Char))
  | [] => .ok []
  | p :: ps =>
    if p.truthy then
      match p with
      | .atom (.str s) =>
        match filterParts ps with
        | .error e => .error e
        | .ok rest => .ok (if stripList s ≠ [] then s :: rest else rest)
      | _ => .error .attributeError
    else filterParts ps

/-- Valid URL scheme characters after the leading letter. -/
def schemeCh (c : Char) : Bool :=
  ('a' ≤ c && c ≤ 'z') || ('A' ≤ c && c ≤ 'Z') || isDigitCh c ||
  c = '+' || c = '-' || c = '.'

/-- Strip a leading `scheme:` from a URL when present (models the
scheme split of `urllib.parse.urlparse`). -/
def dropScheme (u : List Char) : List Char :=
  let pre := u.takeWhile (fun c => c ≠ ':')
  let post := u.drop pre.length
  match post with
  | ':' :: r =>
    if pre ≠ [] && (('a' ≤ pre.headD ' ' && pre.headD ' ' ≤ 'z') ||
                    ('A' ≤ pre.headD ' ' && pre.headD ' ' ≤ 'Z')) &&
       pre.all schemeCh then r else u
  | _ => u

/-- `urlparse(url).netloc`: the text between a leading `//` (after an
optional scheme) and the next `/`, `?` or `#`; empty when the URL has no
`//`. -/
def netlocOf (u : List Char) : List Char :=
  match dropScheme u with
  | '/' :: '/' :: r => r.takeWhile (fun c => c ≠ '/' && c ≠ '?' && c ≠ '#')
  | _ => []

/-- A (possibly timezone-aware) parsed datetime; `off` is the UTC
offset in seconds when the text carried one. -/
structure PyDateTime where
  y : Nat
  mo : Nat
  d : Nat
  h : Nat := 0
  mi : Nat := 0
  s : Nat := 0
  off : Option Int := none
deriving DecidableEq, Repr

/-- Proleptic Gregorian leap year. -/
def isLeap (y : Nat) : Bool :=
  y % 4 = 0 && (y % 100 ≠ 0 || y % 400 = 0)

/-- Days in the given month. -/
def daysInMonth (y mo : Nat) : Nat :=
  if mo = 2 then (if isLeap y then 29 else 28)
  else if mo = 4 || mo = 6 || mo = 9 || mo = 11 then 30
  else 31

/-- Cumulative days before the given month in a non-leap year. -/
def cumMonth : Nat → Nat
  | 1 => 0 | 2 => 31 | 3 => 59 | 4 => 90 | 5 => 120 | 6 => 151
  | 7 => 181 | 8 => 212 | 9 => 243 | 10 => 273 | 11 => 304 | 12 => 334
  | _ => 0

/-- The proleptic Gregorian ordinal of a date, as Python
`date.toordinal` (day 1 is 0001-01-01). -/
def toOrdinal (y mo d : Nat) : Nat :=
  365 * (y - 1) + (y - 1) / 4 - (y - 1) / 100 + (y - 1) / 400 +
  cumMonth mo + (if 3 ≤ mo && isLeap y then 1 else 0) + d

/-- Range validity of a parsed date. -/
def validDate (y mo d : Nat) : Bool :=
  1 ≤ y && y ≤ 9999 && 1 ≤ mo && mo ≤ 12 && 1 ≤ d && d ≤ daysInMonth y mo

/-- Parse exactly `n` ASCII digits. -/
def parseDigits : Nat → List Char → Option (Nat × List Char)
  | 0, s => some (0, s)
  | n + 1, c :: r =>
    if isDigitCh c then
      (parseDigits n r).bind (fun p =>
        some (p.1 + (c.toNat - '0'.toNat) * 10 ^ n, p.2))
    else none
  | _ + 1, [] => none

/-- Parse a trailing `±HH:MM` UTC offset (the whole remainder must be
consumed). -/
def parseOffset : List Char → Option (Option Int)
  | [] => some none
  | c :: r =>
    if c = '+' || c = '-' then
      match parseDigits 2 r with
      | some (hh, r1) =>
        match r1 with
        | ':' :: r2 =>
          match parseDigits 2 r2 with
          | some (mm, r3) =>
            if r3 = [] && hh < 24 && mm < 60 then
              let secs : Int := hh * 3600 + mm * 60
              some (some (if c = '-' then -secs else secs))
            else none
          | none => none
        | _ => none
      | none => none
    else none

/-- Parse an optional `:SS` seconds field. -/
def parseSecs : List Char → Option (Nat × List Char)
  | ':' :: r =>
    match parseDigits 2 r with
    | some (ss, r1) => if ss < 60 then some (ss, r1) else none
    | none => none
  | s => some (0, s)

/-- The modelled subset of `datetime.fromisoformat`:
`YYYY-MM-DD`, optionally followed by `T` or space and `HH:MM[:SS]`,
optionally followed by a `±HH:MM` offset. -/
def fromIso (s : List Char) : Option PyDateTime :=
  match parseDigits 4 s with
  | some (y, '-' :: r1) =>
    match parseDigits 2 r1 with
    | some (mo, '-' :: r2) =>
      match parseDigits 2 r2 with
      | some (d, r3) =>
        if validDate y mo d then
          match r3 with
          | [] => some { y := y, mo := mo, d := d }
          | sep :: r4 =>
            if sep = 'T' || sep = ' ' then
              match parseDigits 2 r4 with
              | some (h, ':' :: r5) =>
                match parseDigits 2 r5 with
                | some (mi, r6) =>
                  match parseSecs r6 with
                  | some (ss, r7) =>
                    if h < 24 && mi < 60 then
                      (parseOffset r7).map (fun o =>
                        { y := y, mo := mo, d := d, h := h, mi := mi,
                          s := ss, off := o })
                    else none
                  | none => none
                | none => none
              | _ => none
            else none
        else none
      | none => none
    | _ => none
  | _ => none

/-- `datetime.strptime` with `'%Y-%m-%d %H:%M:%S'` or
`'%Y-%m-%dT%H:%M:%S'` (naive result, full match required). -/
def strpYMDHMS (sep : Char) (s : List Char) : Option PyDateTime :=
  match parseDigits 4 s with
  | some (y, '-' :: r1) =>
    match parseDigits 2 r1 with
    | some (mo, '-' :: r2) =>
      match parseDigits 2 r2 with
      | some (d, c :: r3) =>
        if c = sep then
          match parseDigits 2 r3 with
          | some (h, ':' :: r4) =>
            match parseDigits 2 r4 with
            | some (mi, ':' :: r5) =>
              match parseDigits 2 r5 with
              | some (ss, []) =>
                if validDate y mo d && h < 24 && mi < 60 && ss < 60 then
                  some { y := y, mo := mo, d := d, h := h, mi := mi, s := ss }
                else none
              | _ => none
            | _ => none
          | _ => none
        else none
      | _ => none
    | _ => none
  | _ => none

/-- `datetime.strptime` with `'%Y-%m-%d'` (naive, full match). -/
def strpYMD (s : List Char) : Option PyDateTime :=
  match parseDigits 4 s with
  | some (y, '-' :: r1) =>
    match parseDigits 2 r1 with
    | some (mo, '-' :: r2) =>
      match parseDigits 2 r2 with
      | some (d, []) => if validDate y mo d then some { y := y, mo := mo, d := d } else none
      | _ => none
    | _ => none
  | _ => none

/-- The ordered fallback format list of the source. -/
def strpFormats : List (List Char → Option PyDateTime) :=
  [strpYMDHMS ' ', strpYMDHMS 'T', strpYMD]

/-- `int(dt.timestamp())`: seconds since the Unix epoch; an aware
datetime uses its own offset, a naive one the host offset `tz`
(719163 is the ordinal of 1970-01-01). -/
def dtTimestamp (tz : Int) (dt : PyDateTime) : Int :=
  ((toOrdinal dt.y dt.mo dt.d : Int) - 719163) * 86400 +
    dt.h * 3600 + dt.mi * 60 + dt.s - dt.off.getD tz

/-- The publish-date block of the validator: ISO-8601 first (with `Z`
rewritten to `+00:00`), then the three fixed fallback patterns, a
numeric value taken directly as a timestamp; every failure degrades to
an absent value. -/
def parsePub (tz : Int) (pd : PyVal) : Option Int :=
  if pd.truthy then
    match pd with
    | .atom (.str s) =>
      match fromIso (pyReplaceChar 'Z' "+00:00".data s) with
      | some dt => some (dtTimestamp tz dt)
      | none =>
        match (strpFormats.filterMap (fun f => f s)).head? with
        | some dt => some (dtTimestamp tz dt)
        | none => none
    | .atom (.int n) => some n
    | .atom (.bool b) => some (if b then 1 else 0)
    | _ => none
  else none

/-- The body of `validate_and_enforce_schema` in the `Except` monad:
`.ok none` is the length-gate rejection, `.error` a raised exception. -/
def validateBody (tz : Int) (a : RawRecord) (idx : Nat) :
    Except PyErr (Option Article) :=
  let aidV := a.article_id.getD (.atom .pynone)
  let article_id := if aidV.truthy then aidV else .atom (.str ("article_".data ++ pad4 idx))
  let tRaw := a.title.getD (.atom .pynone)
  let t0 := if tRaw.truthy then tRaw else a.headline.getD (.atom (.str []))
  let title := if t0.truthy then some (stripList t0.pyStr) else none
  let description := orEmptyStr (a.description.getD (.atom (.str [])))
  match contentStep (orEmptyStr (a.content.getD (.atom (.str [])))) with
  | .error e => .error e
  | .ok content =>
    match filterParts [.atom (.str (title.getD [])), description, content] with
    | .error e => .error e
    | .ok parts =>
      let body_text := joinSpace parts
      let srcA := a.source_name.getD (.atom .pynone)
      let src0 := if srcA.truthy then srcA
                  else orEmptyStr (a.source_id.getD (.atom (.str [])))
      let source := stripList src0.pyStr
      let linkA := a.link.getD (.atom .pynone)
      let url0 := if linkA.truthy then linkA
                  else orEmptyStr (a.url.getD (.atom (.str [])))
      let url := stripList url0.pyStr
      let domain := if url ≠ [] then netlocOf url else []
      let cat0 := a.category.getD (.list [])
      let catAtoms := match cat0 with
        | .list xs => xs
        | .atom x => if PyVal.truthy (.atom x) then [x] else []
      let category := (catAtoms.filter PyAtom.truthy).map (fun c => stripList c.pyStr)
      let pdA := a.pubDate.getD (.atom .pynone)
      let pd0 := if pdA.truthy then pdA else a.pub_date.getD (.atom (.str []))
      let pub_datetime := parsePub tz pd0
      if body_text = [] ∨ (stripList body_text).length < 10 then .ok none
      else .ok (some
        { article_id := article_id.pyStr
          title := title
          body_text := body_text
          source := source
          domain := domain
          category := category
          pub_datetime := pub_datetime
          url := url })

/-- Step 1 of the pipeline: the whole body runs under
`try/except Exception`, any raised error becoming a rejection. -/
def validate_and_enforce_schema (tz : Int) (a : RawRecord) (idx : Nat) :
    Option Article :=
  match validateBody tz a idx with
  | .ok r => r
  | .error _ => none

/-! ## Stages 6-8: linguistic gate, statistics, batch driver -/

/-- Step 6, `perform_linguistic_checks`: reject when the (current)
`body_text` is empty or shorter than `min_length`; append outlier flags
otherwise.  Length thresholds are Python integers, hence `Int`. -/
def perform_linguistic_checks (article : Article) (min_length max_length : Int) :
    Option Article :=
  if article.body_text = [] then none
  else
    let char_count : Int := article.body_text.length
    if char_count < min_length then none
    else
      let a1 := if char_count > max_length then
        { article with flags := article.flags ++ ["extremely_long".data] } else article
      let a2 := if char_count < 100 then
        { a1 with flags := a1.flags ++ ["very_short".data] } else a1
      some a2

/-- Fuel-indexed `str.split()` with no argument: maximal runs of
non-whitespace, empty strings never produced. -/
def splitWsGo : Nat → List Char → List (List Char)
  | 0, _ => []
  | fuel + 1, s =>
    let t := s.dropWhile pyWs
    if t = [] then []
    else t.takeWhile (fun c => !pyWs c) ::
      splitWsGo fuel (t.dropWhile (fun c => !pyWs c))

/-- Models `body_text.split()`. -/
def splitWs (s : List Char) : List (List Char) :=
  splitWsGo s.length s

/-- Fuel-indexed `re.split(r'[.!?]+', text)`: the segments between
maximal terminal-punctuation runs (adjacent segments may be empty). -/
def sentGo : Nat → List Char → List (List Char)
  | 0, s => [s]
  | fuel + 1, s =>
    let seg := s.takeWhile (fun c => !p3 c)
    let rest := s.dropWhile (fun c => !p3 c)
    match rest with
    | [] => [seg]
    | _ :: _ => seg :: sentGo fuel (rest.dropWhile p3)

/-- Models the sentence segmentation of the statistics stage. -/
def sentPieces (s : List Char) : List (List Char) :=
  sentGo s.length s

/-- Step 7, `add_derived_statistics`: character, token and sentence
counts computed from the current `body_text`. -/
def add_derived_statistics (article : Article) : Article :=
  let b := article.body_text
  { article with
    character_count := b.length
    token_count := (splitWs b).length
    sentence_count := ((sentPieces b).filter (fun seg => stripList seg ≠ [])).length }

/-- The stage 2-5 transform block of the loop body: sanitize body and
title, normalize unicode/case, sentence boundaries and numbers, with the
source's mutation order (the title, when present and still nonempty, is
sanitized and normalized alongside the body). -/
def transformRecord (flag : Bool) (validated : Article) : Article :=
  let t0 := validated.title.getD []
  let b1 := sanitize_text validated.body_text
  let (t1, v1) := if t0 ≠ [] then
      (sanitize_text t0, { validated with title := some (sanitize_text t0) })
    else (t0, validated)
  let v2 := { v1 with body_text := b1 }
  let b2 := normalize_unicode_and_case b1
  let v3 := if t1 ≠ [] then
      { v2 with title := some (normalize_unicode_and_case t1) }
    else v2
  let v4 := { v3 with body_text := b2 }
  let b3 := normalize_sentence_boundaries b2
  let v5 := { v4 with body_text := b3 }
  let b4 := normalize_numbers b3 flag
  { v5 with body_text := b4 }

/-- The per-record loop body of `process_articles` (stages 1 to 7 on
one raw record). -/
def pipelineOne (tz : Int) (flag : Bool) (min_length max_length : Int)
    (idx : Nat) (a : RawRecord) : Option Article :=
  match validate_and_enforce_schema tz a idx with
  | none => none
  | some validated =>
    match perform_linguistic_checks (transformRecord flag validated)
        min_length max_length with
    | none => none
    | some checked => some (add_derived_statistics checked)

/-- The index-carrying accumulation loop of the batch driver. -/
def processGo (tz : Int) (flag : Bool) (min_length max_length : Int) :
    Nat → List RawRecord → List Article
  | _, [] => []
  | idx, a :: rest =>
    match pipelineOne tz flag min_length max_length idx a with
    | none => processGo tz flag min_length max_length (idx + 1) rest
    | some art => art :: processGo tz flag min_length max_length (idx + 1) rest

/-- Step 8, `process_articles`: the full batch driver. -/
def process_articles (tz : Int) (raw_articles : List RawRecord)
    (normalize_numbers_flag : Bool) (min_length max_length : Int) :
    List Article :=
  processGo tz normalize_numbers_flag min_length max_length 0 raw_articles

/-- The batch driver instrumented with the source index of each
survivor (used to state order preservation). -/
def processIdxGo (tz : Int) (flag : Bool) (min_length max_length : Int) :
    Nat → List RawRecord → List (Nat × Article)
  | _, [] => []
  | idx, a :: rest =>
    match pipelineOne tz flag min_length max_length idx a with
    | none => processIdxGo tz flag min_length max_length (idx + 1) rest
    | some art => (idx, art) :: processIdxGo tz flag min_length max_length (idx + 1) rest

/-- Survivors paired with the positions of the raw records they came
from. -/
def processWithIdx (tz : Int) (raw_articles : List RawRecord)
    (flag : Bool) (min_length max_length : Int) : List (Nat × Article) :=
  processIdxGo tz flag min_length max_length 0 raw_articles

/-- An input on which the quote-replacement line breaks idempotence:
it contains one occurrence of `quoteNeedle` (at index 3), and splicing
the apostrophe replacement between the surrounding characters
reconstitutes the needle, which a second application then replaces. -/
def nonIdempotentInput : List Char :=
  ", \"".data ++ quoteNeedle ++ "\").replace(".data

/-- Scenario 1 of the specification: the paywalled record with markup
and a URL. -/
def scenario1 : RawRecord :=
  { title := some (.atom (.str "Big <b>Win</b>!!!".data)),
    description := some (.atom (.str "See http://x.co now".data)),
    content := some (.atom (.str "ONLY AVAILABLE in paid plan".data)) }

/-- A record whose assembled body is long only because of a URL that the
sanitizer later removes. -/
def urlPaddedRecord : RawRecord :=
  { title := some (.atom (.str "Hello http://aaaaaaaaaaaaaaaaaaaa.com world ok".data)) }

/-- A plain healthy record used for concrete witness runs. -/
def plainRecord : RawRecord :=
  { title := some (.atom (.str "hello world okay fine".data)) }

/-- A record carrying the ISO publish date of scenario 4. -/
def pubDateRecord : RawRecord :=
  { title := some (.atom (.str "hello world okay fine".data)),
    pubDate := some (.atom (.str "2024-05-01T10:00:00Z".data)) }

/-! ## Lemmas: the sanitizer never leaves an HTML tag

`hasTag s = false` is preserved by every stage after tag removal, and
tag removal establishes it on any input. -/

theorem hasTag_cons (x : Char) (t : List Char) :
    hasTag (x :: t) =
      ((x = '<' && t.contains '>' && !(t.head? = some '>')) || hasTag t) := rfl

theorem hasTag_tail {x : Char} {t : List Char} (h : hasTag (x :: t) = false) :
    hasTag t = false := by
  rw [hasTag_cons] at h
  exact (Bool.or_eq_false_iff.mp h).2

theorem hasTag_suffix {s t : List Char} (hsf : t <:+ s)
    (h : hasTag s = false) : hasTag t = false := by
  induction s with
  | nil => simpa using List.eq_nil_of_suffix_nil hsf ▸ h
  | cons c r ih =>
    rcases List.suffix_cons_iff.mp hsf with h1 | h2
    · exact h1 ▸ h
    · exact ih h2 (hasTag_tail h)

theorem splitAtGt_eq_none {s : List Char} (h : splitAtGt s = none) : '>' ∉ s := by
  induction s with
  | nil => simp
  | cons c r ih =>
    by_cases hc : c = '>'
    · subst hc; simp [splitAtGt] at h
    · simp only [splitAtGt, if_neg hc] at h
      rcases hr : splitAtGt r with _ | p
      · intro hm
        rcases List.mem_cons.mp hm with h1 | h1
        · exact hc h1.symm
        · exact ih hr h1
      · rw [hr] at h; simp at h

theorem splitAtGt_eq_some {s i a : List Char}
    (h : splitAtGt s = some (i, a)) : s = i ++ '>' :: a ∧ '>' ∉ i := by
  induction s generalizing i a with
  | nil => simp [splitAtGt] at h
  | cons c r ih =>
    by_cases hc : c = '>'
    · subst hc
      simp only [splitAtGt, if_pos, Option.some.injEq, Prod.mk.injEq] at h
      obtain ⟨h1, h2⟩ := h
      subst h1; subst h2; simp
    · simp only [splitAtGt, if_neg hc] at h
      rcases hr : splitAtGt r with _ | ⟨i2, a2⟩
      · rw [hr] at h; simp at h
      · rw [hr] at h
        simp only [Option.map, Option.some.injEq, Prod.mk.injEq] at h
        obtain ⟨h1, h2⟩ := h
        rcases ih hr with ⟨hr1, hr2⟩
        subst h2
        constructor
        · rw [← h1, hr1]; simp
        · rw [← h1]
          intro hm
          rcases List.mem_cons.mp hm with h3 | h3
          · exact hc h3.symm
          · exact hr2 h3

theorem mem_removeTagsGo {d : Char} :
    ∀ {f : Nat} {s : List Char}, d ∈ removeTagsGo f s → d ∈ s := by
  intro f
  induction f with
  | zero => intro s h; simpa [removeTagsGo] using h
  | succ f ih =>
    intro s h
    match s with
    | [] => simp [removeTagsGo] at h
    | c :: rest =>
      by_cases hc : c = '<'
      · rcases hg : splitAtGt rest with _ | ⟨i, a⟩
        · simp only [removeTagsGo, if_pos hc, hg] at h
          rcases List.mem_cons.mp h with h1 | h1
          · simp [h1]
          · exact List.mem_cons_of_mem _ (ih h1)
        · simp only [removeTagsGo, if_pos hc, hg] at h
          by_cases hi : i = []
          · rw [if_pos hi] at h
            rcases List.mem_cons.mp h with h1 | h1
            · simp [h1]
            · exact List.mem_cons_of_mem _ (ih h1)
          · rw [if_neg hi] at h
            have hmem := ih h
            have hs := (splitAtGt_eq_some hg).1
            apply List.mem_cons_of_mem
            rw [hs]
            simp [hmem]
      · simp only [removeTagsGo, if_neg hc] at h
        rcases List.mem_cons.mp h with h1 | h1
        · simp [h1]
        · exact List.mem_cons_of_mem _ (ih h1)

theorem head_removeTagsGo_gt (f : Nat) (r : List Char) :
    (removeTagsGo f ('>' :: r)).head? = some '>' := by
  cases f with
  | zero => rfl
  | succ f => simp [removeTagsGo]

theorem hasTag_removeTagsGo :
    ∀ {f : Nat} {s : List Char}, s.length ≤ f → hasTag (removeTagsGo f s) = false := by
  intro f
  induction f with
  | zero =>
    intro s h
    have hs : s = [] := List.eq_nil_of_length_eq_zero (Nat.le_zero.mp h)
    subst hs; rfl
  | succ f ih =>
    intro s hlen
    match s with
    | [] => rfl
    | c :: rest =>
      have hrest : rest.length ≤ f := by
        have : rest.length + 1 ≤ f + 1 := by simpa using hlen
        omega
      by_cases hc : c = '<'
      · rcases hg : splitAtGt rest with _ | ⟨i, a⟩
        · have hng := splitAtGt_eq_none hg
          simp only [removeTagsGo, if_pos hc, hg, hasTag_cons]
          have hnm : '>' ∉ removeTagsGo f rest := fun hm => hng (mem_removeTagsGo hm)
          have hcontains : (removeTagsGo f rest).contains '>' = false := by simpa using hnm
          rw [hcontains, ih hrest]
          simp
        · by_cases hi : i = []
          · subst hi
            have hrw := (splitAtGt_eq_some hg).1
            simp only [List.nil_append] at hrw
            rw [hrw] at hrest
            simp only [removeTagsGo, if_pos hc, hg]
            rw [if_pos trivial, hasTag_cons, hrw, head_removeTagsGo_gt, ih hrest]
            simp
          · simp only [removeTagsGo, if_pos hc, hg]
            rw [if_neg hi]
            apply ih
            have hrw := (splitAtGt_eq_some hg).1
            have hl : rest.length = i.length + (a.length + 1) := by
              rw [hrw]; simp [List.length_append]
            omega
      · simp only [removeTagsGo, if_neg hc, hasTag_cons]
        rw [ih hrest]
        simp [hc]

theorem hasTag_removeTags (s : List Char) : hasTag (removeTags s) = false :=
  hasTag_removeTagsGo (Nat.le_refl _)

theorem hasTag_cons_false_iff (x : Char) (t : List Char) :
    hasTag (x :: t) = false ↔
      ((x = '<' → t.contains '>' = false ∨ t.head? = some '>') ∧ hasTag t = false) := by
  rw [hasTag_cons]
  by_cases hx : x = '<'
  · by_cases hh : t.head? = some '>'
    · by_cases hcont : t.contains '>' <;> simp [hx, hh, hcont]
    · by_cases hcont : t.contains '>' <;> simp [hx, hh, hcont]
  · simp [hx]

theorem afterScheme_spec {t rem : List Char} (h : afterScheme t = some rem) :
    rem <:+ t ∧ rem.length + 3 ≤ t.length := by
  match t with
  | [] => simp [afterScheme] at h
  | [c1] => simp [afterScheme] at h
  | [c1, c2] => simp [afterScheme] at h
  | c1 :: c2 :: c3 :: u =>
    simp only [afterScheme] at h
    by_cases hg : c1 = ':' && c2 = '/' && c3 = '/'
    · rw [if_pos hg] at h
      by_cases he : u.takeWhile (fun c => !pyWs c) = []
      · rw [if_pos he] at h; simp at h
      · rw [if_neg he] at h
        simp only [Option.some.injEq] at h
        subst h
        constructor
        · calc u.dropWhile (fun c => !pyWs c) <:+ u := List.dropWhile_suffix _
            _ <:+ c3 :: u := List.suffix_cons c3 u
            _ <:+ c2 :: c3 :: u := List.suffix_cons c2 _
            _ <:+ c1 :: c2 :: c3 :: u := List.suffix_cons c1 _
        · have := (List.dropWhile_suffix (l := u) (fun c => !pyWs c)).length_le
          simp only [List.length_cons]
          omega
    · rw [if_neg hg] at h; simp at h

theorem tryHttp_spec {s rem : List Char} (h : tryHttp s = some rem) :
    rem <:+ s ∧ rem.length < s.length := by
  match s with
  | [] => simp [tryHttp] at h
  | [c1] => simp [tryHttp] at h
  | [c1, c2] => simp [tryHttp] at h
  | [c1, c2, c3] => simp [tryHttp] at h
  | [c1, c2, c3, c4] => simp [tryHttp] at h
  | c1 :: c2 :: c3 :: c4 :: c5 :: rest2 =>
    simp only [tryHttp] at h
    by_cases hg : charCI c1 'h' && charCI c2 't' && charCI c3 't' && charCI c4 'p'
    · rw [if_pos hg] at h
      by_cases h5 : charCI c5 's'
      · rw [if_pos h5] at h
        rcases ha : afterScheme rest2 with _ | rem2
        · simp only [ha] at h
          rcases afterScheme_spec h with ⟨hsf, hlen⟩
          refine ⟨?_, ?_⟩
          · calc rem <:+ c5 :: rest2 := hsf
              _ <:+ c4 :: c5 :: rest2 := List.suffix_cons c4 _
              _ <:+ c3 :: c4 :: c5 :: rest2 := List.suffix_cons c3 _
              _ <:+ c2 :: c3 :: c4 :: c5 :: rest2 := List.suffix_cons c2 _
              _ <:+ c1 :: c2 :: c3 :: c4 :: c5 :: rest2 := List.suffix_cons c1 _
          · simp only [List.length_cons] at hlen ⊢
            omega
        · simp only [ha, Option.some.injEq] at h
          subst h
          rcases afterScheme_spec ha with ⟨hsf, hlen⟩
          refine ⟨?_, ?_⟩
          · calc rem2 <:+ rest2 := hsf
              _ <:+ c5 :: rest2 := List.suffix_cons c5 _
              _ <:+ c4 :: c5 :: rest2 := List.suffix_cons c4 _
              _ <:+ c3 :: c4 :: c5 :: rest2 := List.suffix_cons c3 _
              _ <:+ c2 :: c3 :: c4 :: c5 :: rest2 := List.suffix_cons c2 _
              _ <:+ c1 :: c2 :: c3 :: c4 :: c5 :: rest2 := List.suffix_cons c1 _
          · simp only [List.length_cons] at hlen ⊢
            omega
      · rw [if_neg h5] at h
        rcases afterScheme_spec h with ⟨hsf, hlen⟩
        refine ⟨?_, ?_⟩
        · calc rem <:+ c5 :: rest2 := hsf
            _ <:+ c4 :: c5 :: rest2 := List.suffix_cons c4 _
            _ <:+ c3 :: c4 :: c5 :: rest2 := List.suffix_cons c3 _
            _ <:+ c2 :: c3 :: c4 :: c5 :: rest2 := List.suffix_cons c2 _
            _ <:+ c1 :: c2 :: c3 :: c4 :: c5 :: rest2 := List.suffix_cons c1 _
        · simp only [List.length_cons] at hlen ⊢
          omega
    · rw [if_neg hg] at h; simp at h

theorem tryWww_spec {s rem : List Char} (h : tryWww s = some rem) :
    rem <:+ s ∧ rem.length < s.length := by
  match s with
  | [] => simp [tryWww] at h
  | [c1] => simp [tryWww] at h
  | [c1, c2] => simp [tryWww] at h
  | [c1, c2, c3] => simp [tryWww] at h
  | c1 :: c2 :: c3 :: c4 :: rest =>
    simp only [tryWww] at h
    by_cases hg : charCI c1 'w' && charCI c2 'w' && charCI c3 'w' && c4 = '.'
    · rw [if_pos hg] at h
      by_cases he : rest.takeWhile (fun c => !pyWs c) = []
      · rw [if_pos he] at h; simp at h
      · rw [if_neg he] at h
        simp only [Option.some.injEq] at h
        subst h
        constructor
        · calc rest.dropWhile (fun c => !pyWs c) <:+ rest := List.dropWhile_suffix _
            _ <:+ c4 :: rest := List.suffix_cons c4 _
            _ <:+ c3 :: c4 :: rest := List.suffix_cons c3 _
            _ <:+ c2 :: c3 :: c4 :: rest := List.suffix_cons c2 _
            _ <:+ c1 :: c2 :: c3 :: c4 :: rest := List.suffix_cons c1 _
        · have := (List.dropWhile_suffix (l := rest) (fun c => !pyWs c)).length_le
          simp only [List.length_cons]
          omega
    · rw [if_neg hg] at h; simp at h

theorem tryUrl_spec {s rem : List Char} (h : tryUrl s = some rem) :
    rem <:+ s ∧ rem.length < s.length := by
  unfold tryUrl at h
  rcases hh : tryHttp s with _ | rem2
  · rw [hh] at h
    exact tryWww_spec h
  · rw [hh] at h
    simp only [Option.some.injEq] at h
    subst h
    exact tryHttp_spec hh

theorem tryHttp_cons_gt (r : List Char) : tryHttp ('>' :: r) = none := by
  have hci : charCI '>' 'h' = false := by decide
  match r with
  | [] => rfl
  | [a] => rfl
  | [a, b] => rfl
  | [a, b, c] => rfl
  | a :: b :: c :: d :: r2 => simp [tryHttp, hci]

theorem tryWww_cons_gt (r : List Char) : tryWww ('>' :: r) = none := by
  have hci : charCI '>' 'w' = false := by decide
  match r with
  | [] => rfl
  | [a] => rfl
  | [a, b] => rfl
  | a :: b :: c :: r2 => simp [tryWww, hci]

theorem tryUrl_cons_gt (r : List Char) : tryUrl ('>' :: r) = none := by
  unfold tryUrl
  rw [tryHttp_cons_gt, tryWww_cons_gt]

theorem head_removeURLsGo_gt (f : Nat) (r : List Char) :
    (removeURLsGo f ('>' :: r)).head? = some '>' := by
  cases f with
  | zero => rfl
  | succ f => simp only [removeURLsGo, tryUrl_cons_gt, List.head?_cons]

theorem mem_removeURLsGo {d : Char} :
    ∀ {f : Nat} {s : List Char}, d ∈ removeURLsGo f s → d ∈ s := by
  intro f
  induction f with
  | zero => intro s h; simpa [removeURLsGo] using h
  | succ f ih =>
    intro s h
    match s with
    | [] => simp [removeURLsGo] at h
    | c :: rest =>
      rcases hu : tryUrl (c :: rest) with _ | rem
      · simp only [removeURLsGo, hu] at h
        rcases List.mem_cons.mp h with h1 | h1
        · simp [h1]
        · exact List.mem_cons_of_mem _ (ih h1)
      · simp only [removeURLsGo, hu] at h
        exact (tryUrl_spec hu).1.sublist.subset (ih h)

theorem hasTag_removeURLsGo :
    ∀ {f : Nat} {s : List Char}, s.length ≤ f → hasTag s = false →
      hasTag (removeURLsGo f s) = false := by
  intro f
  induction f with
  | zero =>
    intro s hl h
    have hs : s = [] := List.eq_nil_of_length_eq_zero (Nat.le_zero.mp hl)
    subst hs; rfl
  | succ f ih =>
    intro s hl h
    match s with
    | [] => rfl
    | c :: rest =>
      have hrest : rest.length ≤ f := by
        have : rest.length + 1 ≤ f + 1 := by simpa using hl
        omega
      rcases hu : tryUrl (c :: rest) with _ | rem
      · simp only [removeURLsGo, hu]
        rcases (hasTag_cons_false_iff c rest).mp h with ⟨hhead, htail⟩
        refine (hasTag_cons_false_iff c (removeURLsGo f rest)).mpr ⟨?_, ih hrest htail⟩
        intro hc
        rcases hhead hc with h1 | h1
        · left
          have : '>' ∉ removeURLsGo f rest := by
            intro hm
            have := mem_removeURLsGo hm
            simp_all
          simpa using this
        · right
          cases rest with
          | nil => simp at h1
          | cons d r2 =>
            have hd : d = '>' := by simpa using h1
            subst hd
            exact head_removeURLsGo_gt f r2
      · simp only [removeURLsGo, hu]
        rcases tryUrl_spec hu with ⟨hsf, hlen⟩
        have h1 : hasTag rem = false := hasTag_suffix hsf h
        have h2 : rem.length ≤ f := by
          simp only [List.length_cons] at hlen
          omega
        exact ih h2 h1

theorem hasTag_filterPrintable {s : List Char} (h : hasTag s = false) :
    hasTag (filterPrintable s) = false := by
  induction s with
  | nil => rfl
  | cons c rest ih =>
    rcases (hasTag_cons_false_iff c rest).mp h with ⟨hhead, htail⟩
    rw [filterPrintable, List.filter_cons]
    by_cases hp : (inPrintable c || pyWs c) = true
    · rw [if_pos hp]
      refine (hasTag_cons_false_iff c _).mpr ⟨?_, ih htail⟩
      intro hc
      rcases hhead hc with h1 | h1
      · left
        have : '>' ∉ List.filter (fun c => inPrintable c || pyWs c) rest := by
          intro hm
          have := (List.mem_filter.mp hm).1
          simp_all
        simpa using this
      · right
        cases rest with
        | nil => simp at h1
        | cons d r2 =>
          have hd : d = '>' := by simpa using h1
          subst hd
          rw [List.filter_cons, if_pos (by decide)]
          rfl
    · rw [if_neg hp]
      exact ih htail

theorem head_collapseWs_gt (r : List Char) :
    (collapseWs ('>' :: r)).head? = some '>' := by
  cases r with
  | nil => rfl
  | cons b r2 =>
    have hw : pyWs '>' = false := by decide
    simp [collapseWs, hw]

theorem mem_collapseWs {d : Char} :
    ∀ {s : List Char}, d ∈ collapseWs s → d = ' ' ∨ d ∈ s := by
  intro s
  induction s with
  | nil => intro h; simp [collapseWs] at h
  | cons a t ih =>
    intro h
    match t with
    | [] =>
      simp only [collapseWs, List.mem_singleton] at h
      by_cases hw : pyWs a
      · rw [if_pos hw] at h; exact Or.inl h
      · rw [if_neg hw] at h; exact Or.inr (by simp [h])
    | b :: r =>
      by_cases hab : pyWs a && pyWs b
      · rw [collapseWs, if_pos hab] at h
        rcases ih h with h1 | h1
        · exact Or.inl h1
        · exact Or.inr (List.mem_cons_of_mem _ h1)
      · rw [collapseWs, if_neg hab] at h
        rcases List.mem_cons.mp h with h1 | h1
        · by_cases hw : pyWs a
          · rw [if_pos hw] at h1; exact Or.inl h1
          · rw [if_neg hw] at h1; exact Or.inr (by simp [h1])
        · rcases ih h1 with h2 | h2
          · exact Or.inl h2
          · exact Or.inr (List.mem_cons_of_mem _ h2)

theorem hasTag_collapseWs :
    ∀ {s : List Char}, hasTag s = false → hasTag (collapseWs s) = false := by
  intro s
  induction s with
  | nil => intro h; rfl
  | cons a t ih =>
    intro h
    rcases (hasTag_cons_false_iff a t).mp h with ⟨hhead, htail⟩
    match t with
    | [] => simp [collapseWs, hasTag]
    | b :: r =>
      by_cases hab : pyWs a && pyWs b
      · rw [collapseWs, if_pos hab]
        exact ih htail
      · rw [collapseWs, if_neg hab]
        refine (hasTag_cons_false_iff _ _).mpr ⟨?_, ih htail⟩
        intro hx
        have hwa : pyWs a = false := by
          by_cases hw : pyWs a
          · rw [if_pos hw] at hx; simp at hx
          · exact Bool.eq_false_iff.mpr hw
        rw [if_neg (Bool.eq_false_iff.mp hwa)] at hx
        subst hx
        rcases hhead rfl with h1 | h1
        · left
          have : '>' ∉ collapseWs (b :: r) := by
            intro hm
            rcases mem_collapseWs hm with h2 | h2
            · simp at h2
            · simp_all
          simpa using this
        · right
          have hb : b = '>' := by simpa using h1
          subst hb
          exact head_collapseWs_gt r

theorem head_collapsePunct_gt (r : List Char) :
    (collapsePunct ('>' :: r)).head? = some '>' := by
  cases r with
  | nil => rfl
  | cons b r2 =>
    have hp : p3 '>' = false := by decide
    simp [collapsePunct, hp]

theorem mem_collapsePunct {d : Char} :
    ∀ {s : List Char}, d ∈ collapsePunct s → d ∈ s := by
  intro s
  induction s with
  | nil => intro h; simp [collapsePunct] at h
  | cons a t ih =>
    intro h
    match t with
    | [] => simpa [collapsePunct] using h
    | b :: r =>
      by_cases hab : p3 a && p3 b
      · rw [collapsePunct, if_pos hab] at h
        exact List.mem_cons_of_mem _ (ih h)
      · rw [collapsePunct, if_neg hab] at h
        rcases List.mem_cons.mp h with h1 | h1
        · simp [h1]
        · exact List.mem_cons_of_mem _ (ih h1)

theorem hasTag_collapsePunct :
    ∀ {s : List Char}, hasTag s = false → hasTag (collapsePunct s) = false := by
  intro s
  induction s with
  | nil => intro h; rfl
  | cons a t ih =>
    intro h
    rcases (hasTag_cons_false_iff a t).mp h with ⟨hhead, htail⟩
    match t with
    | [] => simp [collapsePunct, hasTag]
    | b :: r =>
      by_cases hab : p3 a && p3 b
      · rw [collapsePunct, if_pos hab]
        exact ih htail
      · rw [collapsePunct, if_neg hab]
        refine (hasTag_cons_false_iff _ _).mpr ⟨?_, ih htail⟩
        intro hx
        subst hx
        rcases hhead rfl with h1 | h1
        · left
          have : '>' ∉ collapsePunct (b :: r) := by
            intro hm
            have := mem_collapsePunct hm
            simp_all
          simpa using this
        · right
          have hb : b = '>' := by simpa using h1
          subst hb
          exact head_collapsePunct_gt r

theorem hasTag_append_left {t w : List Char}
    (h : hasTag (t ++ w) = false) : hasTag t = false := by
  induction t with
  | nil => rfl
  | cons c t2 ih =>
    rw [List.cons_append] at h
    rcases (hasTag_cons_false_iff c (t2 ++ w)).mp h with ⟨hhead, htail⟩
    refine (hasTag_cons_false_iff c t2).mpr ⟨?_, ih htail⟩
    intro hc
    rcases hhead hc with h1 | h1
    · left
      have : '>' ∉ t2 := by
        intro hm
        have : ('>' : Char) ∈ t2 ++ w := List.mem_append_left _ hm
        simp_all
      simpa using this
    · cases t2 with
      | nil => left; rfl
      | cons d r2 =>
        right
        simpa using h1

theorem hasTag_stripList {s : List Char} (h : hasTag s = false) :
    hasTag (stripList s) = false := by
  have hu : hasTag (s.dropWhile pyWs) = false :=
    hasTag_suffix (List.dropWhile_suffix pyWs) h
  have hsplit : s.dropWhile pyWs =
      ((s.dropWhile pyWs).reverse.dropWhile pyWs).reverse ++
        ((s.dropWhile pyWs).reverse.takeWhile pyWs).reverse := by
    conv_lhs => rw [← List.reverse_reverse (s.dropWhile pyWs)]
    rw [← List.reverse_append, List.takeWhile_append_dropWhile]
  rw [hsplit] at hu
  exact hasTag_append_left hu

/-- The sanitizer output never contains an HTML tag match, whatever the
input: tag removal establishes the property and every later stage
preserves it. -/
theorem hasTag_sanitize_text (s : List Char) : hasTag (sanitize_text s) = false := by
  unfold sanitize_text
  by_cases hs : s = []
  · rw [if_pos hs]; rfl
  · rw [if_neg hs]
    apply hasTag_stripList
    apply hasTag_collapsePunct
    apply hasTag_collapseWs
    apply hasTag_filterPrintable
    unfold removeURLs
    exact hasTag_removeURLsGo (Nat.le_refl _) (hasTag_removeTags _)

/-! ## Lemmas: the batch driver -/

theorem processGo_length_le (tz : Int) (flag : Bool) (minL maxL : Int) :
    ∀ (idx : Nat) (raws : List RawRecord),
      (processGo tz flag minL maxL idx raws).length ≤ raws.length := by
  intro idx raws
  induction raws generalizing idx with
  | nil => simp [processGo]
  | cons a rest ih =>
    rw [processGo]
    rcases h : pipelineOne tz flag minL maxL idx a with _ | art
    · exact Nat.le_succ_of_le (ih (idx + 1))
    · simpa using Nat.succ_le_succ (ih (idx + 1))

theorem processIdxGo_map_snd (tz : Int) (flag : Bool) (minL maxL : Int) :
    ∀ (idx : Nat) (raws : List RawRecord),
      (processIdxGo tz flag minL maxL idx raws).map Prod.snd =
        processGo tz flag minL maxL idx raws := by
  intro idx raws
  induction raws generalizing idx with
  | nil => rfl
  | cons a rest ih =>
    rw [processGo, processIdxGo]
    rcases h : pipelineOne tz flag minL maxL idx a with _ | art
    · exact ih (idx + 1)
    · simpa using ih (idx + 1)

theorem processIdxGo_fst_ge (tz : Int) (flag : Bool) (minL maxL : Int) :
    ∀ (idx : Nat) (raws : List RawRecord),
      ∀ p ∈ processIdxGo tz flag minL maxL idx raws, idx ≤ p.1 := by
  intro idx raws
  induction raws generalizing idx with
  | nil => intro p hp; simp [processIdxGo] at hp
  | cons a rest ih =>
    intro p hp
    rw [processIdxGo] at hp
    rcases h : pipelineOne tz flag minL maxL idx a with _ | art <;> rw [h] at hp
    · exact Nat.le_of_succ_le (ih (idx + 1) p hp)
    · rcases List.mem_cons.mp hp with h1 | h1
      · subst h1; exact Nat.le_refl idx
      · exact Nat.le_of_succ_le (ih (idx + 1) p h1)

theorem processIdxGo_chain (tz : Int) (flag : Bool) (minL maxL : Int) :
    ∀ (idx : Nat) (raws : List RawRecord),
      List.Chain' (fun p q : Nat × Article => p.1 < q.1)
        (processIdxGo tz flag minL maxL idx raws) := by
  intro idx raws
  induction raws generalizing idx with
  | nil => simp [processIdxGo]
  | cons a rest ih =>
    rw [processIdxGo]
    rcases h : pipelineOne tz flag minL maxL idx a with _ | art
    · exact ih (idx + 1)
    · apply List.chain'_cons'.mpr
      refine ⟨?_, ih (idx + 1)⟩
      intro q hq
      have hmem : q ∈ processIdxGo tz flag minL maxL (idx + 1) rest :=
        List.mem_of_mem_head? hq
      exact Nat.lt_of_succ_le (processIdxGo_fst_ge tz flag minL maxL (idx + 1) rest q hmem)

theorem processIdxGo_source (tz : Int) (flag : Bool) (minL maxL : Int) :
    ∀ (idx : Nat) (raws : List RawRecord),
      ∀ p ∈ processIdxGo tz flag minL maxL idx raws,
        ∃ j r, raws[j]? = some r ∧ p.1 = idx + j ∧
          pipelineOne tz flag minL maxL p.1 r = some p.2 := by
  intro idx raws
  induction raws generalizing idx with
  | nil => intro p hp; simp [processIdxGo] at hp
  | cons a rest ih =>
    intro p hp
    rw [processIdxGo] at hp
    rcases h : pipelineOne tz flag minL maxL idx a with _ | art <;> rw [h] at hp
    · rcases ih (idx + 1) p hp with ⟨j, r, h1, h2, h3⟩
      exact ⟨j + 1, r, by simpa using h1, by omega, h3⟩
    · rcases List.mem_cons.mp hp with h1 | h1
      · subst h1
        exact ⟨0, a, by simp, by omega, h⟩
      · rcases ih (idx + 1) p h1 with ⟨j, r, h2, h3, h4⟩
        exact ⟨j + 1, r, by simpa using h2, by omega, h4⟩

/-! ## Lemmas: gate and statistics -/

theorem gate_some {art b : Article} {minL maxL : Int}
    (h : perform_linguistic_checks art minL maxL = some b) :
    b.body_text = art.body_text ∧ art.body_text ≠ [] ∧
      minL ≤ (art.body_text.length : Int) := by
  unfold perform_linguistic_checks at h
  by_cases h1 : art.body_text = []
  · rw [if_pos h1] at h; simp at h
  · rw [if_neg h1] at h
    by_cases h2 : (art.body_text.length : Int) < minL
    · rw [if_pos h2] at h; simp at h
    · rw [if_neg h2] at h
      simp only [Option.some.injEq] at h
      subst h
      refine ⟨?_, h1, by omega⟩
      by_cases h3 : (art.body_text.length : Int) > maxL <;>
        by_cases h4 : (art.body_text.length : Int) < 100 <;>
          simp [h3, h4]

theorem gate_none_iff (art : Article) (minL maxL : Int) :
    perform_linguistic_checks art minL maxL = none ↔
      (art.body_text = [] ∨ (art.body_text.length : Int) < minL) := by
  unfold perform_linguistic_checks
  by_cases h1 : art.body_text = []
  · simp [h1]
  · rw [if_neg h1]
    by_cases h2 : (art.body_text.length : Int) < minL
    · simp [h1, h2]
    · simp only [if_neg h2]
      simp [h1, h2]

theorem stats_body (art : Article) :
    (add_derived_statistics art).body_text = art.body_text := rfl

theorem stats_character_count (art : Article) :
    (add_derived_statistics art).character_count = art.body_text.length := rfl

theorem stripList_length_le (s : List Char) :
    (stripList s).length ≤ s.length := by
  unfold stripList
  calc ((s.dropWhile pyWs).reverse.dropWhile pyWs).reverse.length
      = ((s.dropWhile pyWs).reverse.dropWhile pyWs).length := List.length_reverse _
    _ ≤ (s.dropWhile pyWs).reverse.length :=
        (List.dropWhile_suffix pyWs).length_le
    _ = (s.dropWhile pyWs).length := List.length_reverse _
    _ ≤ s.length := (List.dropWhile_suffix pyWs).length_le

/-! ## Lemmas: per-record pipeline and the validator -/

theorem transformRecord_body (flag : Bool) (v : Article) :
    (transformRecord flag v).body_text =
      normalize_numbers (normalize_sentence_boundaries (normalize_unicode_and_case
        (sanitize_text v.body_text))) flag := by
  unfold transformRecord
  by_cases h0 : v.title.getD [] ≠ [] <;>
    by_cases h1 : sanitize_text (v.title.getD []) ≠ [] <;>
      simp [h0, h1]

theorem mem_processGo_spec (tz : Int) (flag : Bool) (minL maxL : Int) :
    ∀ (idx : Nat) (raws : List RawRecord) {art : Article},
      art ∈ processGo tz flag minL maxL idx raws →
        art.character_count = art.body_text.length ∧
        minL ≤ (art.body_text.length : Int) ∧ art.body_text ≠ [] := by
  intro idx raws
  induction raws generalizing idx with
  | nil => intro art h; simp [processGo] at h
  | cons a rest ih =>
    intro art h
    rw [processGo] at h
    rcases hp : pipelineOne tz flag minL maxL idx a with _ | b <;> rw [hp] at h
    · exact ih (idx + 1) h
    · rcases List.mem_cons.mp h with h1 | h1
      · subst h1
        unfold pipelineOne at hp
        rcases hv : validate_and_enforce_schema tz a idx with _ | v
        · simp [hv] at hp
        · simp only [hv] at hp
          rcases hg : perform_linguistic_checks (transformRecord flag v) minL maxL
              with _ | checked
          · simp [hg] at hp
          · simp only [hg, Option.some.injEq] at hp
            subst hp
            rcases gate_some hg with ⟨hb, hne, hlen⟩
            refine ⟨rfl, ?_, ?_⟩
            · rw [stats_body, hb]; exact hlen
            · rw [stats_body, hb]; exact hne
      · exact ih (idx + 1) h1

/-! ## Claim theorems -/

/-- C1: for every input list of raw records and every configuration,
`process_articles` returns at most as many articles as it was given,
and the survivors appear in the same relative order as the raw records
they were produced from: the index-instrumented driver projects onto
the output, its source indices are strictly increasing, and each
survivor is the pipeline image of the raw record at its index. -/
theorem claim_C1_driver_attrition_order (tz : Int) (flag : Bool)
    (minL maxL : Int) (raws : List RawRecord) :
    (process_articles tz raws flag minL maxL).length ≤ raws.length ∧
    (processWithIdx tz raws flag minL maxL).map Prod.snd =
      process_articles tz raws flag minL maxL ∧
    List.Chain' (· < ·) ((processWithIdx tz raws flag minL maxL).map Prod.fst) ∧
    ∀ p ∈ processWithIdx tz raws flag minL maxL,
      ∃ r, raws[p.1]? = some r ∧
        pipelineOne tz flag minL maxL p.1 r = some p.2 := by
  refine ⟨processGo_length_le tz flag minL maxL 0 raws,
          processIdxGo_map_snd tz flag minL maxL 0 raws, ?_, ?_⟩
  · exact (List.chain'_map Prod.fst).mpr (processIdxGo_chain tz flag minL maxL 0 raws)
  · intro p hp
    rcases processIdxGo_source tz flag minL maxL 0 raws p hp with ⟨j, r, h1, h2, h3⟩
    have hj : p.1 = j := by omega
    exact ⟨r, hj ▸ h1, h3⟩

/-- C2: on every (arbitrarily malformed) raw record the Schema
Validator returns a validated record or a rejection; a raised error in
the validator body is caught and becomes a rejection, never
propagated. -/
theorem claim_C2_validator_never_raises (tz : Int) (a : RawRecord) (idx : Nat) :
    (validate_and_enforce_schema tz a idx = none ∨
      ∃ v, validate_and_enforce_schema tz a idx = some v) ∧
    (validateBody tz a idx = Except.ok (validate_and_enforce_schema tz a idx) ∨
      ∃ e, validateBody tz a idx = Except.error e ∧
        validate_and_enforce_schema tz a idx = none) := by
  rcases hb : validateBody tz a idx with e | r
  · have hv : validate_and_enforce_schema tz a idx = none := by
      simp [validate_and_enforce_schema, hb]
    exact ⟨Or.inl hv, Or.inr ⟨e, rfl, hv⟩⟩
  · have hv : validate_and_enforce_schema tz a idx = r := by
      simp [validate_and_enforce_schema, hb]
    refine ⟨?_, Or.inl (by rw [hv])⟩
    cases r with
    | none => exact Or.inl hv
    | some v => exact Or.inr ⟨v, hv⟩

/-- C3: the Unicode/Case Normalizer is not idempotent, refuting the
claim.  On the quote-replacement line the apostrophes lex as
triple-quote delimiters, so the code replaces the literal `quoteNeedle`
by an apostrophe; on `nonIdempotentInput` one application yields
`quoteNeedle` itself (the replacement splices a new occurrence
together) and a second application collapses it to a lone apostrophe,
so applying the normalizer twice differs from applying it once. -/
theorem claim_C3_normalizer_not_idempotent :
    normalize_unicode_and_case nonIdempotentInput = quoteNeedle ∧
    normalize_unicode_and_case (normalize_unicode_and_case nonIdempotentInput) =
      ['\''] ∧
    normalize_unicode_and_case (normalize_unicode_and_case nonIdempotentInput) ≠
      normalize_unicode_and_case nonIdempotentInput := by
  refine ⟨rfl, rfl, ?_⟩
  decide

/-- C4: any record accepted by the Schema Validator carries a
`body_text` whose trimmed form has at least 10 characters (hence the
text itself has at least 10 characters and is nonempty) before any
sanitization; shorter assembled bodies are rejected. -/
theorem claim_C4_validator_min_body {tz : Int} {a : RawRecord} {idx : Nat}
    {v : Article} (h : validate_and_enforce_schema tz a idx = some v) :
    10 ≤ (stripList v.body_text).length ∧ 10 ≤ v.body_text.length ∧
      v.body_text ≠ [] := by
  unfold validate_and_enforce_schema at h
  rcases hb : validateBody tz a idx with e | r <;> rw [hb] at h
  · simp at h
  · simp only [validateBody] at hb
    split at hb
    · simp at hb
    · split at hb
      · simp at hb
      · split at hb
        · simp only [Except.ok.injEq] at hb
          subst hb; simp at h
        · rename_i hcond
          simp only [Except.ok.injEq] at hb
          subst hb
          simp only [Option.some.injEq] at h
          subst h
          push_neg at hcond
          dsimp only
          exact ⟨hcond.2, le_trans hcond.2 (stripList_length_le _), hcond.1⟩

/-- C8: when the raw `pubDate` field holds the string
`2024-05-01T10:00:00Z` and the record validates, the validator sets
`pub_datetime` to the Unix timestamp 1714557600 of that UTC instant
(ISO-8601 parse with the trailing `Z` rewritten to a zero UTC offset),
independently of the host timezone. -/
theorem claim_C8_pub_datetime_utc {tz : Int} {a : RawRecord} {idx : Nat}
    {v : Article}
    (hpd : a.pubDate = some (.atom (.str "2024-05-01T10:00:00Z".data)))
    (h : validate_and_enforce_schema tz a idx = some v) :
    v.pub_datetime = some 1714557600 := by
  unfold validate_and_enforce_schema at h
  rcases hb : validateBody tz a idx with e | r <;> rw [hb] at h
  · simp at h
  · simp only [validateBody] at hb
    split at hb
    · simp at hb
    · split at hb
      · simp at hb
      · split at hb
        · simp only [Except.ok.injEq] at hb
          subst hb; simp at h
        · simp only [Except.ok.injEq] at hb
          subst hb
          simp only [Option.some.injEq] at h
          subst h
          dsimp only
          rw [hpd]
          rfl

/-- C10: every article emitted by the batch driver has
`character_count` equal to the length of its final `body_text`, that
length is at least `min_length`, and with `min_length ≥ 1` the body is
nonempty (the gate in fact guarantees nonemptiness outright). -/
theorem claim_C10_survivor_counts {tz : Int} {flag : Bool} {minL maxL : Int}
    {raws : List RawRecord} {art : Article}
    (h : art ∈ process_articles tz raws flag minL maxL) :
    art.character_count = art.body_text.length ∧
    minL ≤ (art.body_text.length : Int) ∧
    (1 ≤ minL → art.body_text ≠ []) := by
  rcases mem_processGo_spec tz flag minL maxL 0 raws h with ⟨h1, h2, h3⟩
  exact ⟨h1, h2, fun _ => h3⟩

/-! ## Lemmas: leading punctuation stripping (stage 4, rule 5) -/

theorem p6_not_ws {c : Char} (h : p6 c = true) : pyWs c = false := by
  have hd : ((((c = '.' ∨ c = ',') ∨ c = '!') ∨ c = '?') ∨ c = ';') ∨ c = ':' := by
    simpa [p6] using h
  rcases hd with ((((rfl | rfl) | rfl) | rfl) | rfl) | rfl <;> rfl

theorem ws_not_p6 {c : Char} (h : pyWs c = true) : p6 c = false := by
  by_cases hp : p6 c = true
  · rw [p6_not_ws hp] at h; cases h
  · simpa using hp

theorem dropWhile_append_all {q : Char → Bool} {w rest : List Char}
    (h : ∀ c ∈ w, q c = true) : (w ++ rest).dropWhile q = rest.dropWhile q := by
  induction w with
  | nil => rfl
  | cons x t ih =>
    rw [List.cons_append, List.dropWhile_cons, if_pos (h x (List.mem_cons_self x t))]
    exact ih (fun c hc => h c (List.mem_cons_of_mem x hc))

theorem takeWhile_append_all {q : Char → Bool} {w rest : List Char}
    (h : ∀ c ∈ w, q c = true) : (w ++ rest).takeWhile q = w ++ rest.takeWhile q := by
  induction w with
  | nil => rfl
  | cons x t ih =>
    rw [List.cons_append, List.takeWhile_cons, if_pos (h x (List.mem_cons_self x t)),
      ih (fun c hc => h c (List.mem_cons_of_mem x hc)), List.cons_append]

/-- C9 (amended): the anchored pass strips the leading run of
punctuation only when the run is followed by whitespace: an optional
whitespace run, a nonempty punctuation run and a nonempty whitespace run
at the very start are removed together, leaving the remainder; without
the trailing whitespace nothing is removed, so the normalizer output can
begin with a punctuation character. -/
theorem claim_C9_amended_leading_punct_strip (w p u r : List Char)
    (hw : ∀ c ∈ w, pyWs c = true) (hp : p ≠ []) (hp6 : ∀ c ∈ p, p6 c = true)
    (hu : u ≠ []) (huw : ∀ c ∈ u, pyWs c = true)
    (hr : ∀ d, r.head? = some d → pyWs d = false) :
    stripLeadingPunct (w ++ p ++ u ++ r) = r := by
  match p, u with
  | p0 :: pt, u0 :: ut =>
    have hrw : w ++ (p0 :: pt) ++ (u0 :: ut) ++ r =
        w ++ ((p0 :: pt) ++ ((u0 :: ut) ++ r)) := by simp
    rw [hrw]
    simp only [stripLeadingPunct]
    rw [dropWhile_append_all hw]
    have htake : ((p0 :: pt) ++ ((u0 :: ut) ++ r)).takeWhile p6 = p0 :: pt := by
      rw [takeWhile_append_all hp6, List.cons_append u0 ut r, List.takeWhile_cons,
        if_neg (by rw [ws_not_p6 (huw u0 (List.mem_cons_self u0 ut))]; simp),
        List.append_nil]
    have hdrop : ((p0 :: pt) ++ ((u0 :: ut) ++ r)).dropWhile p6 = u0 :: (ut ++ r) := by
      rw [dropWhile_append_all hp6, List.cons_append u0 ut r, List.dropWhile_cons,
        if_neg (by rw [ws_not_p6 (huw u0 (List.mem_cons_self u0 ut))]; simp)]
    have hstop : ((p0 :: pt) ++ ((u0 :: ut) ++ r)).dropWhile pyWs =
        (p0 :: pt) ++ ((u0 :: ut) ++ r) := by
      rw [List.cons_append p0 pt ((u0 :: ut) ++ r), List.dropWhile_cons,
        if_neg (by rw [p6_not_ws (hp6 p0 (List.mem_cons_self p0 pt))]; simp),
        ← List.cons_append p0 pt ((u0 :: ut) ++ r)]
    rw [hstop, htake, hdrop]
    rw [if_pos ?_]
    · rw [List.dropWhile_cons, if_pos (huw u0 (List.mem_cons_self u0 ut)),
        dropWhile_append_all (fun c hc => huw c (List.mem_cons_of_mem u0 hc))]
      cases r with
      | nil => rfl
      | cons d rt =>
        rw [List.dropWhile_cons, if_neg (by rw [hr d rfl]; simp)]
    · rw [Bool.and_eq_true]
      constructor
      · simp
      · show pyWs ((u0 :: (ut ++ r)).headD 'x') = true
        simpa using huw u0 (List.mem_cons_self u0 ut)

/-- C5 (amended): for every input string the sanitizer output contains
no substring matching the HTML tag pattern `<[^>]+>`; the URL half of
the original claim does not hold in general (see the counterexample:
later passes can splice characters into a URL-shaped token). -/
theorem claim_C5_amended_sanitizer_tag_free (s : List Char) :
    hasTag (sanitize_text s) = false :=
  hasTag_sanitize_text s

/-- C5 counterexample: sanitizing `www?.com` collapses the
`?.` punctuation run to `.`, producing `www.com`, which matches the
`www.` URL pattern — the output is not URL-free as claimed. -/
theorem counterexample_C5_url_in_output :
    sanitize_text "www?.com".data = "www.com".data ∧
      hasUrl (sanitize_text "www?.com".data) = true := by
  exact ⟨rfl, rfl⟩

/-- C6 (amended): the stage 6 gate decides on the final, fully
normalized `body_text` (not on the text as assembled by the validator):
for a record that passes the validator, the pipeline drops it at stage 6
exactly when the post-normalization body is empty or shorter than
`min_length`. -/
theorem claim_C6_amended_gate_on_final_text (tz : Int) (flag : Bool)
    (minL maxL : Int) (idx : Nat) (a : RawRecord) (v : Article)
    (h : validate_and_enforce_schema tz a idx = some v) :
    (transformRecord flag v).body_text =
      normalize_numbers (normalize_sentence_boundaries
        (normalize_unicode_and_case (sanitize_text v.body_text))) flag ∧
    (pipelineOne tz flag minL maxL idx a = none ↔
      ((transformRecord flag v).body_text = [] ∨
        ((transformRecord flag v).body_text.length : Int) < minL)) := by
  refine ⟨transformRecord_body flag v, ?_⟩
  unfold pipelineOne
  simp only [h]
  rcases hg : perform_linguistic_checks (transformRecord flag v) minL maxL
      with _ | checked
  · simp only [hg]
    constructor
    · intro _; exact (gate_none_iff _ minL maxL).mp hg
    · intro _; trivial
  · simp only [hg]
    constructor
    · intro hc; simp at hc
    · intro hc
      have hnone := (gate_none_iff (transformRecord flag v) minL maxL).mpr hc
      rw [hg] at hnone
      simp at hnone

/-- C6 counterexample: a record whose assembled (pre-normalization)
body has 46 characters, well above `min_length = 20`, is nevertheless
rejected, because sanitization removes its URL and the gate measures the
final text — the stage 6 decision is not determined by the
pre-normalization length. -/
theorem counterexample_C6_gate_not_on_assembled_length :
    (validate_and_enforce_schema 0 urlPaddedRecord 0).map
        (fun v => v.body_text.length) = some 46 ∧
    (20 : Int) ≤ 46 ∧
    pipelineOne 0 false 20 100000 0 urlPaddedRecord = none := by
  refine ⟨rfl, by norm_num, rfl⟩

/-- C7 (amended): scenario 1 produces the sanitized, normalized body
`big win! see now` exactly as claimed, but its whitespace token count is
4 (`big`, `win!`, `see`, `now`), not 3. -/
theorem claim_C7_amended_scenario1 (tz : Int) :
    (validate_and_enforce_schema tz scenario1 0).map (fun v =>
      (normalize_sentence_boundaries (normalize_unicode_and_case
        (sanitize_text v.body_text)),
       (add_derived_statistics { v with
         body_text := normalize_sentence_boundaries (normalize_unicode_and_case
           (sanitize_text v.body_text)) }).token_count)) =
    some ("big win! see now".data, 4) := by
  have h0 : validate_and_enforce_schema tz scenario1 0 =
      validate_and_enforce_schema 0 scenario1 0 := rfl
  rw [h0]
  rfl

/-- C7 counterexample: on scenario 1 the Statistics Annotator computes
`token_count = 4` on `big win! see now`, refuting the claimed value 3. -/
theorem counterexample_C7_token_count :
    (validate_and_enforce_schema 0 scenario1 0).map (fun v =>
      (add_derived_statistics { v with
        body_text := normalize_sentence_boundaries (normalize_unicode_and_case
          (sanitize_text v.body_text)) }).token_count) = some 4 ∧
    (some 4 : Option Nat) ≠ some 3 := by
  exact ⟨rfl, by decide⟩

/-- C9 counterexample: on input `.hello` the leading punctuation is not
followed by whitespace, so it is not stripped; the normalizer output
`. hello` begins with a punctuation character of the claimed set. -/
theorem counterexample_C9_leading_punct_survives :
    normalize_sentence_boundaries ".hello".data = ". hello".data ∧
    (normalize_sentence_boundaries ".hello".data).head? = some '.' ∧
    p6 '.' = true := by
  exact ⟨rfl, rfl, rfl⟩

/-- Witness for C4: the plain concrete record validates and the
theorem yields its body-length bounds there. -/
theorem claim_C4_witness :
    10 ≤ (stripList ((validate_and_enforce_schema 0 plainRecord 0).getD
      emptyArticle).body_text).length ∧
    10 ≤ ((validate_and_enforce_schema 0 plainRecord 0).getD
      emptyArticle).body_text.length :=
  ⟨(@claim_C4_validator_min_body 0 plainRecord 0
      ((validate_and_enforce_schema 0 plainRecord 0).getD emptyArticle) (by rfl)).1,
   (@claim_C4_validator_min_body 0 plainRecord 0
      ((validate_and_enforce_schema 0 plainRecord 0).getD emptyArticle) (by rfl)).2.1⟩

/-- Witness for C6 (amended): on the plain concrete record with
`min_length = 5` the gate equivalence holds concretely. -/
theorem claim_C6_witness :
    pipelineOne 0 false 5 1000 0 plainRecord = none ↔
      ((transformRecord false ((validate_and_enforce_schema 0 plainRecord 0).getD
          emptyArticle)).body_text = [] ∨
        (((transformRecord false ((validate_and_enforce_schema 0 plainRecord 0).getD
          emptyArticle)).body_text.length : Int) < 5)) :=
  (claim_C6_amended_gate_on_final_text 0 false 5 1000 0 plainRecord _ (by rfl)).2

/-- Witness for C8: the concrete record carrying the scenario 4
publish date validates and receives the expected UTC timestamp. -/
theorem claim_C8_witness :
    ((validate_and_enforce_schema 0 pubDateRecord 0).getD
      emptyArticle).pub_datetime = some 1714557600 :=
  @claim_C8_pub_datetime_utc 0 pubDateRecord 0
    ((validate_and_enforce_schema 0 pubDateRecord 0).getD emptyArticle)
    (by rfl) (by rfl)

/-- Witness for C9 (amended): a leading space, a two-dot run and a
space before `hi` are stripped together. -/
theorem claim_C9_witness :
    stripLeadingPunct (" ".data ++ "..".data ++ " ".data ++ "hi".data) = "hi".data :=
  claim_C9_amended_leading_punct_strip " ".data "..".data " ".data "hi".data
    (by decide) (by decide) (by decide) (by decide) (by decide)
    (fun d hd => (Option.some.inj hd) ▸ (by decide : pyWs 'h' = false))

/-- Witness for C10: the single survivor of a concrete batch satisfies
the count and length bounds of the theorem. -/
theorem claim_C10_witness :
    ((process_articles 0 [plainRecord] false 5 1000).headD
      emptyArticle).character_count =
      ((process_articles 0 [plainRecord] false 5 1000).headD
        emptyArticle).body_text.length ∧
    (5 : Int) ≤ (((process_articles 0 [plainRecord] false 5 1000).headD
      emptyArticle).body_text.length : Int) := by
  have hmem : (process_articles 0 [plainRecord] false 5 1000).headD emptyArticle ∈
      process_articles 0 [plainRecord] false 5 1000 := by decide
  exact ⟨(claim_C10_survivor_counts hmem).1, (claim_C10_survivor_counts hmem).2.1⟩
